import Mathlib

/-!
# gupdate: watch, debounce, build and supervise

A shallow embedding of `main.go` and the properties of its event filter,
modification-time dedup, build-and-restart pipeline, run-argument parsing,
configuration defaults and directory enumeration.

Conventions of the embedding.

* A Go `string` is the list of its characters (`Str`); the program's texts are
  taken to be valid UTF-8, so that a character is what `regexp` reads as one rune
  and an ASCII suffix of the bytes is an ASCII suffix of the characters.
* An `int64` number of seconds is an `Int`; the program only compares such values.
* A global variable becomes an argument and a result of the function that uses it.
* A goroutine started with `go` is not run by the function that starts it: the
  function returns what it started, and `runPipeline` places the steps of the
  goroutine among those of its caller.
* What the operating system answers (a file's modification time, whether a path
  is a directory, the outcome of the build command, the content of a directory)
  is an argument of the function that asks.
-/

namespace Gupdate

/-- A Go string, as the list of its characters. -/
abbrev Str := List Char

/-! ## Package `strings` and `path` -/

/-- Go `strings.HasSuffix`: `len(s) >= len(suffix) && s[len(s)-len(suffix):] == suffix`. -/
def HasSuffix (s suffix : Str) : Bool :=
  decide (suffix.length ≤ s.length) && (s.drop (s.length - suffix.length) == suffix)

/-- Go `strings.HasPrefix`: `len(s) >= len(prefix) && s[:len(prefix)] == prefix`. -/
def HasPrefix (s pre : Str) : Bool :=
  decide (pre.length ≤ s.length) && (s.take pre.length == pre)

/-- Go `strings.Contains`: some position of `s` starts an occurrence of `substr`. -/
def Contains : Str → Str → Bool
  | [], substr => substr == []
  | c :: s, substr => HasPrefix (c :: s) substr || Contains s substr

/-- The scan of Go `path.Ext`, on the characters in reverse order: the characters
after the last dot are accumulated in `acc`; a slash before any dot ends the scan. -/
def extScan : Str → Str → Str
  | [], _ => []
  | c :: r, acc =>
    if c = '/' then []
    else if c = '.' then '.' :: acc
    else extScan r (c :: acc)

/-- Go `path.Ext`: the suffix beginning at the final dot of the final
slash-separated element, empty if there is no dot. -/
def Ext (path : Str) : Str := extScan path.reverse []

/-! ## The event filter (`main.go`, lines 21-22 and 105-122) -/

/-- The global `watchExtsStatic`. -/
def watchExtsStatic : List Str := [".html".toList, ".tpl".toList, ".js".toList, ".css".toList]

/-- The global `watchExts`. -/
def watchExts : List Str := [".go".toList]

/-- The function `ifStaticFile`: true as soon as one static extension is a suffix. -/
def ifStaticFile (filename : Str) : Bool :=
  watchExtsStatic.any fun s => HasSuffix filename s

/-- The function `shouldWatchFileWithExtension`: true as soon as one watched
extension is a suffix. -/
def shouldWatchFileWithExtension (name : Str) : Bool :=
  watchExts.any fun s => HasSuffix name s

/-! ## The event handler of `newWatcher` (lines 52-84) -/

/-- The global map `eventTime`, from a path to its last recorded modification time. -/
abbrev ModTimeTable := Str → Option Int

/-- A Go map read `m[k]`: the zero value when the key is absent. -/
def ModTimeTable.get (m : ModTimeTable) (k : Str) : Int := (m k).getD 0

/-- A Go map write `m[k] = v`. -/
def ModTimeTable.set (m : ModTimeTable) (k : Str) (v : Int) : ModTimeTable :=
  fun k' => if k' = k then some v else m k'

/-- The table of a program that has seen no event yet: `make(map[string]int64)`. -/
def emptyTable : ModTimeTable := fun _ => none

/-- Lines 63-69 of the handler: with `mt` the modification time read for `name`,
`isBuild` is false when `mt` equals what the table gives for `name`, and the table
records `mt` in either case. Returns the new table and `isBuild`. -/
def dedupCheck (eventTime : ModTimeTable) (name : Str) (mt : Int) : ModTimeTable × Bool :=
  let isBuild := if mt = eventTime.get name then false else true
  (eventTime.set name mt, isBuild)

/-- The two `continue` tests that open the handler (lines 55-61): the event goes on
only if the path is not a static file and has a watched extension. -/
def passesFilter (name : Str) : Bool :=
  if ifStaticFile name then false
  else if !shouldWatchFileWithExtension name then false
  else true

/-- One turn of the handler's loop on a change event for `name`, where `mt` is what
`GetFileModTime(name)` returns. Returns the new table and whether a build is
scheduled (the `go func` of lines 75-81 is started). -/
def handleEvent (eventTime : ModTimeTable) (name : Str) (mt : Int) : ModTimeTable × Bool :=
  if passesFilter name then dedupCheck eventTime name mt else (eventTime, false)

/-! ## Package `regexp`: the fragment used by `Start`

Go's `regexp` gives the match a backtracking search would find first
(leftmost-first): alternatives are tried left to right and `+` takes as many
repetitions as it can before giving one back. `Regex.run` lists, in that order of
preference, what can remain of the input after a match starting at its head. -/

/-- Regular expressions over character classes, concatenation, alternation and
greedy repetition. -/
inductive Regex where
  | cls (p : Char → Bool)
  | seq (a b : Regex)
  | alt (a b : Regex)
  | plus (a : Regex)

/-- Greedy repetition, one or more times: after one match of the body leaving `r`,
further repetitions from `r` are preferred to stopping at `r`. A repetition that
consumes nothing is not repeated. The first argument bounds the number of
repetitions and is taken larger than the input. -/
def plusLoop (step : Str → List Str) : Nat → Str → List Str
  | 0, _ => []
  | n + 1, s => (step s).flatMap fun r =>
      (if r.length < s.length then plusLoop step n r else []) ++ [r]

/-- The remainders of `s` after each match of the expression at the head of `s`,
the preferred match first. -/
def Regex.run : Regex → Str → List Str
  | .cls p, s =>
    match s with
    | [] => []
    | c :: r => if p c then [r] else []
  | .seq a b, s => (a.run s).flatMap b.run
  | .alt a b, s => a.run s ++ b.run s
  | .plus a, s => plusLoop a.run (s.length + 1) s

/-- Perl class `\s` of Go's `regexp/syntax`: `[\t\n\f\r ]`. -/
def isSpace (c : Char) : Bool :=
  c == '\t' || c == '\n' || c == '\x0c' || c == '\r' || c == ' '

/-- A literal character. -/
def Regex.lit (c : Char) : Regex := .cls fun d => d == c

/-- The expression `.`: any character but a newline. -/
def Regex.dot : Regex := .cls fun d => d != '\n'

/-- The expression `\S`. -/
def Regex.nonSpace : Regex := .cls fun d => !isSpace d

/-- The pattern of line 212, `'.+'|".+"|\S+`. -/
def runargsRe : Regex :=
  .alt (.seq (.lit '\'') (.seq (.plus .dot) (.lit '\'')))
    (.alt (.seq (.lit '"') (.seq (.plus .dot) (.lit '"')))
      (.plus .nonSpace))

/-- The preferred match of `re` at the head of `s`: the matched text and the rest. -/
def matchAt (re : Regex) (s : Str) : Option (Str × Str) :=
  match (re.run s).head? with
  | some r => some (s.take (s.length - r.length), r)
  | none => none

/-- The leftmost match of `re` in `s`: the text skipped before it, the matched text
and the rest. -/
def doExecute (re : Regex) : Str → Option (Str × Str × Str)
  | [] =>
    match matchAt re [] with
    | some (m, r) => some ([], m, r)
    | none => none
  | c :: s =>
    match matchAt re (c :: s) with
    | some (m, r) => some ([], m, r)
    | none =>
      match doExecute re s with
      | some (skip, m, r) => some (c :: skip, m, r)
      | none => none

/-- The loop of `Regexp.allMatches` on the text `s` that remains from the current
position. `prevHere` says that the previous match ended at the current position: an
empty match there is then not delivered. After an empty match at the current
position the loop moves on by one character, after any other match it moves to the
end of the match. The first argument bounds the number of turns. -/
def allMatches (re : Regex) : Nat → Bool → Str → List Str
  | 0, _, _ => []
  | n + 1, prevHere, s =>
    match doExecute re s with
    | none => []
    | some (skip, m, r) =>
      if skip = [] ∧ m = [] then
        (if prevHere then [] else [m]) ++
          (match s with
           | [] => []
           | _ :: t => allMatches re n false t)
      else m :: allMatches re n true r

/-- Go `(*Regexp).FindAllString(s, -1)`: all successive matches, left to right. -/
def FindAllString (re : Regex) (s : Str) : List Str :=
  allMatches re (s.length + 1) false s

/-! ## The process supervisor (lines 28 and 180-221) -/

/-- What the program keeps of an `exec.Cmd`: the path, the argument list and the
operating-system process, absent as long as none was launched. -/
structure Cmd where
  Path : Str
  Args : List Str
  Process : Option Nat
deriving DecidableEq

/-- The observable steps of a pipeline execution: taking and releasing the lock
`state`, `os.Chdir`, the build command, the entry into `Kill`, the termination of a
process, the statement `go Start(appname)` and the entry into `Start`. -/
inductive Event where
  | lock
  | unlock
  | chdir (dir : Str)
  | build (name : Str) (args : List Str)
  | kill
  | signal (pid : Nat)
  | go (appname : Str)
  | start (appname : Str)
deriving DecidableEq

/-- The function `Kill`: the process of the current handle, if there is one, is
force-terminated; an error or a panic of the termination is logged and dropped.
The handle itself is not assigned. -/
def Kill (cmd : Option Cmd) : List Event :=
  Event.kill ::
    (match cmd with
     | some c =>
       match c.Process with
       | some pid => [Event.signal pid]
       | none => []
     | none => [])

/-- The argument list `Start` gives the child (lines 204-217): the artifact path,
made relative to the current directory, then the matches of `runargsRe` in
`runargs` when that string is not empty. -/
def startArgs (runargs appname : Str) : List Str :=
  let appname := if !Contains appname "./".toList then "./".toList ++ appname else appname
  if runargs ≠ [] then [appname] ++ FindAllString runargsRe runargs
  else [appname] ++ []

/-- The function `Start`, which runs in a goroutine of its own: a new handle
replaces the global `cmd`; `pid` is the process the operating system creates for
it, if it does. Returns the new handle and the steps of the goroutine. -/
def Start (runargs appname : Str) (pid : Option Nat) : Cmd × List Event :=
  let args := startArgs runargs appname
  ({ Path := args.headD appname, Args := args, Process := pid }, [Event.start appname])

/-- The function `Restart`: `Kill()` returns, then `go Start(appname)` starts a
goroutine and `Restart` returns without waiting for it. Returns the steps of the
call and the argument of the goroutine it started; `Restart` itself does not assign
the handle. -/
def Restart (appname : Str) (cmd : Option Cmd) : List Event × Option Str :=
  (Kill cmd ++ [Event.go appname], some appname)

/-- The outcome of `bcmd.Run()`: success, or an error with the captured standard
error. -/
inductive BuildResult where
  | ok
  | failed (stderr : Str)
deriving DecidableEq

/-- The three globals set from the command line. -/
structure Args where
  mainFilePath : Str
  projectPath : Str
  runargs : Str
deriving DecidableEq

/-- The function `AutoBuildAndRun`, on the current handle `cmd`: `goos` is
`runtime.GOOS` and `result` the outcome of the build command. Returns the steps of
the call, of which the deferred `Unlock` is the last on either path, and the
argument of the goroutine `Start` it started, if it did. -/
def AutoBuildAndRun (a : Args) (goos : Str) (result : BuildResult) (cmd : Option Cmd) :
    List Event × Option Str :=
  let appName := "go-app-debug".toList ++ (if goos = "windows".toList then ".exe".toList else [])
  let args := ["build".toList] ++ ["-o".toList, appName] ++ [a.mainFilePath]
  let pre := [Event.lock, Event.chdir a.projectPath, Event.build "go".toList args]
  match result with
  | .failed _ => (pre ++ [Event.unlock], none)
  | .ok =>
    let (ev, g) := Restart appName cmd
    (pre ++ ev ++ [Event.unlock], g)

/-- An execution of `AutoBuildAndRun` together with the goroutine it started, when
that goroutine runs once the first `k` steps of the call are done: its steps come
between these and the remaining steps of the call, and it assigns the handle. `pid`
is the process created for the child. Returns the handle at the end and all steps
in the order they happen. A goroutine runs after the `go` statement that starts
it, so that `k` is past that statement. -/
def runPipeline (a : Args) (goos : Str) (result : BuildResult) (pid : Option Nat)
    (cmd : Option Cmd) (k : Nat) : Option Cmd × List Event :=
  match AutoBuildAndRun a goos result cmd with
  | (ev, none) => (cmd, ev)
  | (ev, some appname) =>
    let (c, ev') := Start a.runargs appname pid
    (some c, ev.take k ++ ev' ++ ev.drop k)

/-- The calls of supervisor operations among the steps: `Kill` and `Start`. -/
def supervisorOps (evs : List Event) : List Event :=
  evs.filter fun e =>
    match e with
    | .kill => true
    | .start _ => true
    | _ => false

/-! ## Configuration defaults (`initArgs`, lines 257-281) -/

/-- The function `initArgs`. `stat p` is what `IsDirectory(p)` observes (`none`
for an error, otherwise whether `p` is a directory) and `getwd` what `os.Getwd()`
returns (`none` for an error). The result is `none` when the program stops in
`log.Fatal`. -/
def initArgs (stat : Str → Option Bool) (getwd : Option Str) (a : Args) : Option Args :=
  let fallback : Option Args :=
    match stat a.projectPath with
    | some true => some a
    | _ =>
      match getwd with
      | none => none
      | some wd =>
        some { a with
          projectPath := wd
          mainFilePath :=
            if a.mainFilePath.length ≤ 0 then wd ++ "/main.go".toList else a.mainFilePath }
  match fallback with
  | none => none
  | some a =>
    some (if a.runargs.length ≤ 0 then
        { a with runargs := "-conf ".toList ++ a.projectPath ++ "/app.toml".toList }
      else a)

/-! ## Directory enumeration (`readAppDirectories`, lines 224-247) -/

/-- The entries of a directory, in the order `ioutil.ReadDir` gives them. An entry
is a subdirectory, with its own entries and whether `ReadDir` can read it, or
anything else (`file`). An entry name is never empty. -/
inductive Entries where
  | nil
  | file (name : Str) (rest : Entries)
  | dir (name : Str) (readable : Bool) (sub : Entries) (rest : Entries)

/-- The loop of lines 231-246 on the entries of `directory` not yet visited, with
the current values of `useDirectory` and of the slice `paths`. For a `file` entry
`IsDir()` is false. For a subdirectory whose name does not begin with a dot the call
`readAppDirectories(directory+"/"+name, paths)` is unfolded: it returns at once
when `ReadDir` fails and otherwise runs the loop on the subdirectory with
`useDirectory` false. -/
def readLoop : Entries → Str → Bool → List Str → List Str
  | .nil, _, _, paths => paths
  | .file name rest, directory, useDirectory, paths =>
    if useDirectory then readLoop rest directory useDirectory paths
    else if Ext name = ".go".toList then readLoop rest directory true (paths ++ [directory])
    else readLoop rest directory useDirectory paths
  | .dir name readable sub rest, directory, useDirectory, paths =>
    if name.head? != some '.' then
      readLoop rest directory useDirectory
        (if readable then readLoop sub (directory ++ "/".toList ++ name) false paths
         else paths)
    else if useDirectory then readLoop rest directory useDirectory paths
    else if Ext name = ".go".toList then readLoop rest directory true (paths ++ [directory])
    else readLoop rest directory useDirectory paths

/-- The function `readAppDirectories` on the directory named `directory`:
`content` is what `ioutil.ReadDir(directory)` returns, `none` for an error, and
`paths` the slice the results are appended to. -/
def readAppDirectories (directory : Str) (content : Option Entries) (paths : List Str) :
    List Str :=
  match content with
  | none => paths
  | some entries => readLoop entries directory false paths

/-! ## Reference notions for run-argument parsing -/

/-- The remainders a greedy repetition of the class `p` leaves on `s`, fewest
remaining characters first: a closed form of `plusLoop` on a class. -/
def greedyTails (p : Char → Bool) : Str → List Str
  | [] => []
  | c :: s => if p c then greedyTails p s ++ [s] else []

/-- The maximal runs of non-whitespace characters of a text, left to right: the
pieces between whitespace characters that are not empty. -/
def maximalRuns (s : Str) : List Str :=
  (s.splitOnP isSpace).filter fun w => w ≠ []

/-- The text made of the separators `seps` with the words `ws` between them:
`sep₀ w₁ sep₁ w₂ ... wₙ sepₙ`. -/
def weave : List Str → List Str → Str
  | sep :: seps, w :: ws => sep ++ w ++ weave seps ws
  | sep :: _, [] => sep
  | [], _ => []

/-- The remainders of `r` after `.+` and a closing quote `q`, as the pattern's
quoted alternatives leave them once the opening quote is read. -/
def quoteTails (q : Char) (r : Str) : List Str :=
  (greedyTails (fun d => d != '\n') r).flatMap (Regex.lit q).run

/-! ## The event filter -/

theorem HasSuffix_iff (s suffix : Str) :
    HasSuffix s suffix = true ↔ ∃ pre, s = pre ++ suffix := by
  constructor
  · intro h
    simp only [HasSuffix, Bool.and_eq_true, decide_eq_true_eq, beq_iff_eq] at h
    refine ⟨s.take (s.length - suffix.length), ?_⟩
    conv_lhs => rw [← List.take_append_drop (s.length - suffix.length) s]
    rw [h.2]
  · rintro ⟨pre, rfl⟩
    simp [HasSuffix]

theorem getLast?_of_HasSuffix {s suffix : Str} (h : HasSuffix s suffix = true)
    (hne : suffix ≠ []) : s.getLast? = suffix.getLast? := by
  obtain ⟨pre, rfl⟩ := (HasSuffix_iff s suffix).1 h
  cases suffix with
  | nil => exact absurd rfl hne
  | cons c t =>
    rw [List.getLast?_append]
    cases hq : (c :: t).getLast? with
    | none => simp at hq
    | some x => rfl

theorem not_static_of_go {name : Str} (h : HasSuffix name ".go".toList = true) :
    ifStaticFile name = false := by
  have hl := getLast?_of_HasSuffix h (by decide)
  have hgo : (".go".toList : Str).getLast? = some 'o' := by decide
  rw [hgo] at hl
  have key : ∀ ext ∈ watchExtsStatic, HasSuffix name ext = false := by
    intro ext hext
    cases hx : HasSuffix name ext with
    | false => rfl
    | true =>
      exfalso
      have hne : ext ≠ [] := by
        simp only [watchExtsStatic, List.mem_cons, List.mem_singleton, List.not_mem_nil,
          or_false] at hext
        rcases hext with rfl | rfl | rfl | rfl <;> decide
      have h2 := getLast?_of_HasSuffix hx hne
      rw [hl] at h2
      simp only [watchExtsStatic, List.mem_cons, List.mem_singleton, List.not_mem_nil,
        or_false] at hext
      rcases hext with rfl | rfl | rfl | rfl <;> revert h2 <;> decide
  simp only [ifStaticFile, List.any_eq_false]
  intro ext hext
  simp [key ext hext]

theorem passesFilter_iff (name : Str) :
    passesFilter name = true ↔ HasSuffix name ".go".toList = true := by
  constructor
  · intro h
    by_cases h1 : ifStaticFile name = true
    · simp [passesFilter, h1] at h
    · by_cases h2 : shouldWatchFileWithExtension name = true
      · simpa [shouldWatchFileWithExtension, watchExts] using h2
      · simp [passesFilter, h1, h2] at h
  · intro h
    have h1 := not_static_of_go h
    have h2 : shouldWatchFileWithExtension name = true := by
      simpa [shouldWatchFileWithExtension, watchExts] using h
    simp [passesFilter, h1, h2]

/-- C4: the handler's relevance decision rejects every path that ends with one of
the static extensions `.html`, `.tpl`, `.js`, `.css`, and lets a path through
exactly when it ends with `.go`; a change to `style.css` schedules no build,
whatever the table and the modification time, and `handler.go` passes the filter. -/
theorem passesFilter_spec (name : Str) :
    (∀ ext ∈ watchExtsStatic, (∃ pre, name = pre ++ ext) → passesFilter name = false) ∧
    (passesFilter name = true ↔ ∃ pre, name = pre ++ ".go".toList) ∧
    watchExtsStatic = [".html".toList, ".tpl".toList, ".js".toList, ".css".toList] ∧
    (∀ (tbl : ModTimeTable) (mt : Int), (handleEvent tbl "style.css".toList mt).2 = false) ∧
    passesFilter "handler.go".toList = true := by
  refine ⟨?_, ?_, rfl, ?_, by decide⟩
  · intro ext hext hsuf
    have h1 : ifStaticFile name = true := by
      simp only [ifStaticFile, List.any_eq_true]
      exact ⟨ext, hext, (HasSuffix_iff name ext).2 hsuf⟩
    simp [passesFilter, h1]
  · rw [passesFilter_iff, HasSuffix_iff]
  · intro tbl mt
    have h : passesFilter "style.css".toList = false := by decide
    unfold handleEvent
    rw [h]
    rfl

/-- A path under a directory that ends with `.css` is rejected by the filter. -/
theorem passesFilter_spec_witness : passesFilter "web/style.css".toList = false :=
  (passesFilter_spec "web/style.css".toList).1 ".css".toList (by decide)
    ⟨"web/style".toList, by decide⟩

/-! ## The modification-time table -/

/-- What holds of the dedup check on a path the table has no entry for, when the
modification time is not the zero value of the map: process, then skip, then
process again on a different time. -/
theorem dedupCheck_fresh_nonzero (tbl : ModTimeTable) (p : Str) (t t' : Int)
    (hp : tbl p = none) (ht : t ≠ 0) (ht' : t' ≠ t) :
    (dedupCheck tbl p t).2 = true ∧
    (dedupCheck tbl p t).1 p = some t ∧
    (dedupCheck (dedupCheck tbl p t).1 p t).2 = false ∧
    (dedupCheck (dedupCheck (dedupCheck tbl p t).1 p t).1 p t').2 = true := by
  simp [dedupCheck, ModTimeTable.get, ModTimeTable.set, hp, ht, ht']

/-- The second and third checks behave as described for every first time. -/
theorem dedupCheck_repeat (tbl : ModTimeTable) (p : Str) (t t' : Int) (ht' : t' ≠ t) :
    (dedupCheck (dedupCheck tbl p t).1 p t).2 = false ∧
    (dedupCheck (dedupCheck (dedupCheck tbl p t).1 p t).1 p t').2 = true := by
  simp [dedupCheck, ModTimeTable.get, ModTimeTable.set, ht']

/-- C3, at the failing input: on the table without any entry, the dedup check of
`handler.go` with modification time 0 (the Unix epoch) answers `false` (skip),
because an absent entry reads as 0; the handler then schedules no build for this
first change of a watched file. -/
theorem dedupCheck_epoch_skipped :
    emptyTable "handler.go".toList = none ∧
    (dedupCheck emptyTable "handler.go".toList 0).2 = false ∧
    (handleEvent emptyTable "handler.go".toList 0).2 = false := by
  decide

/-! ## The build-and-restart pipeline -/

/-- C1: whatever the configuration, the platform, the handle `cmd` left by earlier
executions and the process a launch would create, an execution of `AutoBuildAndRun`
whose build fails starts no goroutine, calls no supervisor operation and leaves the
handle as it was, and one whose build succeeds calls exactly `Kill` and then `Start`
of the built artifact, at whatever point after the statement `go Start(appname)`
the started goroutine runs. -/
theorem AutoBuildAndRun_supervisorOps (a : Args) (goos : Str) (pid : Option Nat)
    (cmd : Option Cmd) :
    (∀ (stderr : Str) (k : Nat),
      (AutoBuildAndRun a goos (.failed stderr) cmd).2 = none ∧
      supervisorOps (AutoBuildAndRun a goos (.failed stderr) cmd).1 = [] ∧
      supervisorOps (runPipeline a goos (.failed stderr) pid cmd k).2 = [] ∧
      (runPipeline a goos (.failed stderr) pid cmd k).1 = cmd) ∧
    (∀ k : Nat,
      Event.go ("go-app-debug".toList ++
          (if goos = "windows".toList then ".exe".toList else [])) ∈
        (AutoBuildAndRun a goos .ok cmd).1.take k →
      supervisorOps (runPipeline a goos .ok pid cmd k).2 =
        [Event.kill,
          Event.start ("go-app-debug".toList ++
            (if goos = "windows".toList then ".exe".toList else []))]) := by
  constructor
  · intro stderr k
    simp [AutoBuildAndRun, runPipeline, supervisorOps]
  · intro k hk
    rcases cmd with _ | ⟨p, ar, _ | pr⟩ <;>
      rcases k with _ | _ | _ | _ | _ | _ | _ | k <;>
      simp [AutoBuildAndRun, Restart, Kill, Start, runPipeline, supervisorOps] at hk ⊢

/-- On Linux, with no child running yet, a successful execution whose goroutine
runs after the first five steps of the call (lock, chdir, build, `Kill`, `go`), that
is before the lock is released, calls `Kill` and then `Start`. -/
theorem AutoBuildAndRun_supervisorOps_witness :
    supervisorOps
        (runPipeline
          { mainFilePath := "/proj/main.go".toList, projectPath := "/proj".toList,
            runargs := "-conf /proj/app.toml".toList }
          "linux".toList .ok (some 4242) none 5).2 =
      [Event.kill, Event.start "go-app-debug".toList] :=
  (AutoBuildAndRun_supervisorOps
    { mainFilePath := "/proj/main.go".toList, projectPath := "/proj".toList,
      runargs := "-conf /proj/app.toml".toList }
    "linux".toList (some 4242) none).2 5 (by decide)

/-! ## Configuration defaults -/

/-- The default entry point, where the program sets it: when the supplied project
root is not a valid directory, the current directory `wd` becomes the project root
and an unset entry point becomes `wd/main.go`. -/
theorem initArgs_fallback_mainFilePath (stat : Str → Option Bool) (wd : Str) (a : Args)
    (hdir : stat a.projectPath ≠ some true) (hmain : a.mainFilePath = []) :
    ∃ a', initArgs stat (some wd) a = some a' ∧ a'.projectPath = wd ∧
      a'.mainFilePath = wd ++ "/main.go".toList := by
  rcases hs : stat a.projectPath with _ | _ | _
  · by_cases hr : a.runargs.length ≤ 0 <;> simp [initArgs, hs, hmain, hr]
  · by_cases hr : a.runargs.length ≤ 0 <;> simp [initArgs, hs, hmain, hr]
  · exact absurd hs hdir

/-- C7, at the failing input: with `/proj` a valid directory and neither entry
point nor run arguments given, `initArgs` keeps `/proj` as project root, sets the
default run arguments and leaves the entry point empty: it is not `/proj/main.go`. -/
theorem initArgs_valid_root_no_entry_point :
    initArgs (fun p => if p = "/proj".toList then some true else none) (some "/home".toList)
        { mainFilePath := [], projectPath := "/proj".toList, runargs := [] } =
      some { mainFilePath := [], projectPath := "/proj".toList,
             runargs := "-conf /proj/app.toml".toList } ∧
    ([] : Str) ≠ "/proj/main.go".toList := by
  decide

/-! ## Run-argument parsing: the matcher -/

theorem run_cls_nil (p : Char → Bool) : (Regex.cls p).run [] = [] := rfl

theorem run_cls_cons (p : Char → Bool) (c : Char) (s : Str) :
    (Regex.cls p).run (c :: s) = if p c then [s] else [] := rfl

theorem plusLoop_cls (p : Char → Bool) (n : Nat) (s : Str) (h : s.length < n) :
    plusLoop (Regex.cls p).run n s = greedyTails p s := by
  induction s generalizing n with
  | nil =>
    cases n with
    | zero => exact absurd h (by simp)
    | succ n => simp [plusLoop, run_cls_nil, greedyTails]
  | cons c s ih =>
    cases n with
    | zero => exact absurd h (by simp)
    | succ n =>
      have hs : s.length < n := by simpa using h
      by_cases hp : p c = true
      · simp [plusLoop, run_cls_cons, greedyTails, hp, ih n hs]
      · simp [plusLoop, run_cls_cons, greedyTails, hp]

theorem run_plus_cls (p : Char → Bool) (s : Str) :
    (Regex.plus (.cls p)).run s = greedyTails p s := by
  show plusLoop (Regex.cls p).run (s.length + 1) s = greedyTails p s
  exact plusLoop_cls p _ s (Nat.lt_succ_self _)

theorem greedyTails_head? (p : Char → Bool) (c : Char) (s : Str) (hp : p c = true) :
    (greedyTails p (c :: s)).head? = some (s.dropWhile p) := by
  induction s generalizing c with
  | nil => simp [greedyTails, hp]
  | cons d s ih =>
    by_cases hd : p d = true
    · have h1 := ih d hd
      have h2 : greedyTails p (c :: d :: s) = greedyTails p (d :: s) ++ [d :: s] := by
        simp [greedyTails, hp]
      rw [h2, List.head?_append, h1]
      simp [hd]
    · simp [greedyTails, hp, hd]

theorem greedyTails_of_not (p : Char → Bool) (c : Char) (s : Str) (hp : p c = false) :
    greedyTails p (c :: s) = [] := by
  simp [greedyTails, hp]

theorem length_lt_of_mem_greedyTails (p : Char → Bool) (s r : Str)
    (h : r ∈ greedyTails p s) : r.length < s.length := by
  induction s with
  | nil => simp [greedyTails] at h
  | cons c s ih =>
    by_cases hp : p c = true
    · simp only [greedyTails, hp, if_true, List.mem_append, List.mem_singleton] at h
      rcases h with h | rfl
      · have := ih h
        simp only [List.length_cons]
        omega
      · simp
    · simp [greedyTails, hp] at h

theorem run_lit_nil (q : Char) : (Regex.lit q).run [] = [] := rfl

theorem run_lit_cons (q c : Char) (s : Str) :
    (Regex.lit q).run (c :: s) = if c = q then [s] else [] := by
  by_cases h : c = q <;> simp [Regex.lit, run_cls_cons, h]

theorem quoteTails_nil (q : Char) : quoteTails q [] = [] := rfl

theorem quoteTails_cons (q c : Char) (r : Str) :
    quoteTails q (c :: r) =
      if c = '\n' then [] else quoteTails q r ++ (Regex.lit q).run r := by
  by_cases h : c = '\n' <;> simp [quoteTails, greedyTails, h, List.flatMap_append]

theorem quoteTails_of_no_quote (q : Char) (r : Str) (h : ∀ c ∈ r, c ≠ q) :
    quoteTails q r = [] := by
  induction r with
  | nil => rfl
  | cons c r ih =>
    have hr : ∀ d ∈ r, d ≠ q := fun d hd => h d (List.mem_cons_of_mem _ hd)
    have hlit : (Regex.lit q).run r = [] := by
      cases r with
      | nil => rfl
      | cons d r' => simp [run_lit_cons, h d (by simp)]
    rw [quoteTails_cons, ih hr, hlit]
    simp

theorem quoteTails_body (q : Char) (body rest : Str) (hne : body ≠ [])
    (hbody : ∀ c ∈ body, c ≠ q ∧ c ≠ '\n') (hrest : ∀ c ∈ rest, c ≠ q) :
    quoteTails q (body ++ q :: rest) = [rest] := by
  have hclose : quoteTails q (q :: rest) = [] := by
    have hlit : (Regex.lit q).run rest = [] := by
      cases rest with
      | nil => rfl
      | cons d r' => simp [run_lit_cons, hrest d (by simp)]
    rw [quoteTails_cons, quoteTails_of_no_quote q rest hrest, hlit]
    simp
  induction body with
  | nil => exact absurd rfl hne
  | cons c b ih =>
    have hc := hbody c (by simp)
    cases b with
    | nil =>
      show quoteTails q (c :: q :: rest) = [rest]
      rw [quoteTails_cons, hclose, run_lit_cons]
      simp [hc.2]
    | cons d b' =>
      have hb : ∀ x ∈ d :: b', x ≠ q ∧ x ≠ '\n' :=
        fun x hx => hbody x (List.mem_cons_of_mem _ hx)
      have h1 := ih (by simp) hb
      show quoteTails q (c :: (d :: b' ++ q :: rest)) = [rest]
      rw [quoteTails_cons, h1]
      have hd := (hb d (by simp)).1
      simp [hc.2, run_lit_cons, hd]

theorem run_quoted_nil (q : Char) :
    ((Regex.lit q).seq ((Regex.plus .dot).seq (.lit q))).run [] = [] := rfl

theorem run_quoted_cons (q c : Char) (r : Str) :
    ((Regex.lit q).seq ((Regex.plus .dot).seq (.lit q))).run (c :: r) =
      if c = q then quoteTails q r else [] := by
  have h : ((Regex.plus .dot).seq (.lit q)).run r = quoteTails q r := by
    show ((Regex.plus (.cls fun d => d != '\n')).run r).flatMap (Regex.lit q).run = _
    rw [run_plus_cls]
    rfl
  show ((Regex.lit q).run (c :: r)).flatMap ((Regex.plus .dot).seq (.lit q)).run = _
  rw [run_lit_cons]
  by_cases hc : c = q <;> simp [hc, h]

theorem run_runargsRe_nil : runargsRe.run [] = [] := rfl

theorem run_runargsRe_cons (c : Char) (r : Str) :
    runargsRe.run (c :: r) =
      (if c = '\'' then quoteTails '\'' r else []) ++
        ((if c = '"' then quoteTails '"' r else []) ++
          greedyTails (fun d => !isSpace d) (c :: r)) := by
  show ((Regex.lit '\'').seq ((Regex.plus .dot).seq (.lit '\''))).run (c :: r) ++
      (((Regex.lit '"').seq ((Regex.plus .dot).seq (.lit '"'))).run (c :: r) ++
        (Regex.plus (.cls fun d => !isSpace d)).run (c :: r)) = _
  rw [run_quoted_cons, run_quoted_cons, run_plus_cls]

/-! ## Run-argument parsing: one match -/

theorem not_quote_of_isSpace {c : Char} (h : isSpace c = true) : c ≠ '\'' ∧ c ≠ '"' := by
  simp only [isSpace, Bool.or_eq_true, beq_iff_eq] at h
  rcases h with (((rfl | rfl) | rfl) | rfl) | rfl <;> decide

theorem matchAt_of_head? (re : Regex) (m r : Str) (h : (re.run (m ++ r)).head? = some r) :
    matchAt re (m ++ r) = some (m, r) := by
  simp [matchAt, h]

theorem matchAt_nil : matchAt runargsRe [] = none := rfl

theorem matchAt_space (c : Char) (r : Str) (hc : isSpace c = true) :
    matchAt runargsRe (c :: r) = none := by
  have hq := not_quote_of_isSpace hc
  simp [matchAt, run_runargsRe_cons, hq.1, hq.2, greedyTails, hc]

theorem dropWhile_word (p : Char → Bool) (w rest : Str) (hw : ∀ c ∈ w, p c = true)
    (hrest : rest = [] ∨ ∃ d r, rest = d :: r ∧ p d = false) :
    (w ++ rest).dropWhile p = rest := by
  induction w with
  | nil =>
    rcases hrest with rfl | ⟨d, r, rfl, hd⟩
    · rfl
    · simp [List.dropWhile_cons, hd]
  | cons c w ih =>
    have hc := hw c (by simp)
    have := ih (fun x hx => hw x (List.mem_cons_of_mem _ hx))
    simp [List.dropWhile_cons, hc, this]

theorem matchAt_word (c : Char) (w rest : Str) (hq : c ≠ '\'' ∧ c ≠ '"')
    (hw : ∀ x ∈ c :: w, isSpace x = false)
    (hrest : rest = [] ∨ ∃ d r, rest = d :: r ∧ isSpace d = true) :
    matchAt runargsRe (c :: w ++ rest) = some (c :: w, rest) := by
  apply matchAt_of_head?
  show (runargsRe.run (c :: (w ++ rest))).head? = some rest
  have hc : (fun d => !isSpace d) c = true := by simp [hw c (by simp)]
  have hdrop : (w ++ rest).dropWhile (fun d => !isSpace d) = rest := by
    apply dropWhile_word
    · intro x hx
      simp [hw x (List.mem_cons_of_mem _ hx)]
    · rcases hrest with h | ⟨d, r, h, hd⟩
      · exact Or.inl h
      · exact Or.inr ⟨d, r, h, by simp [hd]⟩
  rw [run_runargsRe_cons, if_neg hq.1, if_neg hq.2]
  simp only [List.nil_append]
  rw [greedyTails_head? _ c _ hc, hdrop]

theorem matchAt_quoted (q : Char) (hq : q = '\'' ∨ q = '"') (body rest : Str)
    (hne : body ≠ []) (hbody : ∀ c ∈ body, c ≠ q ∧ c ≠ '\n') (hrest : ∀ c ∈ rest, c ≠ q) :
    matchAt runargsRe (q :: body ++ q :: rest) = some (q :: body ++ [q], rest) := by
  have hs : q :: body ++ q :: rest = (q :: body ++ [q]) ++ rest := by simp
  rw [hs]
  apply matchAt_of_head?
  rw [← hs]
  show (runargsRe.run (q :: (body ++ q :: rest))).head? = some rest
  rw [run_runargsRe_cons]
  have hb := quoteTails_body q body rest hne hbody hrest
  rcases hq with rfl | rfl
  · rw [if_pos rfl, hb]
    rfl
  · rw [if_neg (by decide), if_pos rfl, hb]
    rfl

/-! ## Run-argument parsing: the search and the loop -/

theorem doExecute_of_matchAt (re : Regex) (s m r : Str) (h : matchAt re s = some (m, r)) :
    doExecute re s = some ([], m, r) := by
  cases s with
  | nil => simp [doExecute, h]
  | cons c s => simp [doExecute, h]

theorem doExecute_skip_spaces (ws s : Str) (hws : ∀ c ∈ ws, isSpace c = true) :
    doExecute runargsRe (ws ++ s) =
      match doExecute runargsRe s with
      | some (skip, m, r) => some (ws ++ skip, m, r)
      | none => none := by
  induction ws with
  | nil =>
    cases h : doExecute runargsRe s with
    | none => simp [h]
    | some x => obtain ⟨skip, m, r⟩ := x; simp [h]
  | cons c ws ih =>
    have hc := hws c (by simp)
    have ih' := ih (fun x hx => hws x (List.mem_cons_of_mem _ hx))
    show doExecute runargsRe (c :: (ws ++ s)) = _
    rw [doExecute, matchAt_space c _ hc]
    simp only []
    rw [ih']
    cases h : doExecute runargsRe s with
    | none => simp
    | some x => obtain ⟨skip, m, r⟩ := x; simp

theorem doExecute_spaces (ws : Str) (hws : ∀ c ∈ ws, isSpace c = true) :
    doExecute runargsRe ws = none := by
  have h := doExecute_skip_spaces ws [] hws
  have h0 : doExecute runargsRe [] = none := rfl
  rw [h0] at h
  simpa using h

theorem allMatches_of_none (re : Regex) (n : Nat) (prev : Bool) (s : Str)
    (h : doExecute re s = none) : allMatches re n prev s = [] := by
  cases n with
  | zero => rfl
  | succ n => simp [allMatches, h]

theorem allMatches_step (re : Regex) (n : Nat) (prev : Bool) (s skip m r : Str)
    (h : doExecute re s = some (skip, m, r)) (hm : m ≠ []) :
    allMatches re (n + 1) prev s = m :: allMatches re n true r := by
  simp [allMatches, h, hm]

/-- One turn of the loop on a word: after whitespace `ws`, a word that does not
begin with a quote and is followed by whitespace or by the end is the next match. -/
theorem allMatches_word (n : Nat) (prev : Bool) (ws : Str) (c : Char) (w rest : Str)
    (hws : ∀ x ∈ ws, isSpace x = true) (hq : c ≠ '\'' ∧ c ≠ '"')
    (hw : ∀ x ∈ c :: w, isSpace x = false)
    (hrest : rest = [] ∨ ∃ d r, rest = d :: r ∧ isSpace d = true) :
    allMatches runargsRe (n + 1) prev (ws ++ (c :: w ++ rest)) =
      (c :: w) :: allMatches runargsRe n true rest := by
  apply allMatches_step runargsRe n prev _ (ws ++ []) (c :: w) rest _ (by simp)
  rw [doExecute_skip_spaces ws _ hws,
    doExecute_of_matchAt _ _ _ _ (matchAt_word c w rest hq hw hrest)]

/-- One turn of the loop on a quoted text: after whitespace `ws`, a quote `q`, a
non-empty body without `q` and without newline, and `q` again, followed by a text
without `q`, are the next match, quotes included. -/
theorem allMatches_quoted (n : Nat) (prev : Bool) (ws : Str) (q : Char)
    (hq : q = '\'' ∨ q = '"') (body rest : Str)
    (hws : ∀ x ∈ ws, isSpace x = true) (hne : body ≠ [])
    (hbody : ∀ c ∈ body, c ≠ q ∧ c ≠ '\n') (hrest : ∀ c ∈ rest, c ≠ q) :
    allMatches runargsRe (n + 1) prev (ws ++ (q :: body ++ q :: rest)) =
      (q :: body ++ [q]) :: allMatches runargsRe n true rest := by
  apply allMatches_step runargsRe n prev _ (ws ++ []) (q :: body ++ [q]) rest _ (by simp)
  rw [doExecute_skip_spaces ws _ hws,
    doExecute_of_matchAt _ _ _ _ (matchAt_quoted q hq body rest hne hbody hrest)]

theorem allMatches_spaces (n : Nat) (prev : Bool) (ws : Str)
    (hws : ∀ x ∈ ws, isSpace x = true) : allMatches runargsRe n prev ws = [] :=
  allMatches_of_none _ _ _ _ (doExecute_spaces ws hws)

/-! ## Run-argument parsing: texts without quotes -/

/-- A text is whitespace only, or splits into leading whitespace, a first word and
a rest that is empty or begins with whitespace. -/
theorem first_word (s : Str) :
    (∀ c ∈ s, isSpace c = true) ∨
    ∃ (ws : Str) (c : Char) (w rest : Str), s = ws ++ (c :: w ++ rest) ∧
      (∀ x ∈ ws, isSpace x = true) ∧ (∀ x ∈ c :: w, isSpace x = false) ∧
      (rest = [] ∨ ∃ d r, rest = d :: r ∧ isSpace d = true) := by
  induction s with
  | nil => exact Or.inl (by simp)
  | cons a s ih =>
    cases ha : isSpace a with
    | true =>
      rcases ih with h | ⟨ws, c, w, rest, rfl, hws, hw, hrest⟩
      · left
        intro x hx
        rcases List.mem_cons.1 hx with rfl | hx
        · exact ha
        · exact h x hx
      · right
        refine ⟨a :: ws, c, w, rest, rfl, ?_, hw, hrest⟩
        intro x hx
        rcases List.mem_cons.1 hx with rfl | hx
        · exact ha
        · exact hws x hx
    | false =>
      right
      rcases ih with h | ⟨ws, c, w, rest, rfl, hws, hw, hrest⟩
      · refine ⟨[], a, [], s, rfl, by simp, by simpa using ha, ?_⟩
        cases s with
        | nil => exact Or.inl rfl
        | cons d r => exact Or.inr ⟨d, r, rfl, h d (by simp)⟩
      · cases ws with
        | nil =>
          refine ⟨[], a, c :: w, rest, rfl, by simp, ?_, hrest⟩
          intro x hx
          rcases List.mem_cons.1 hx with rfl | hx
          · exact ha
          · exact hw x hx
        | cons d ws =>
          refine ⟨[], a, [], d :: ws ++ (c :: w ++ rest), rfl, by simp, by simpa using ha, ?_⟩
          exact Or.inr ⟨d, _, rfl, hws d (by simp)⟩

theorem maximalRuns_nil : maximalRuns [] = [] := by
  simp [maximalRuns]

theorem maximalRuns_space_cons (c : Char) (s : Str) (hc : isSpace c = true) :
    maximalRuns (c :: s) = maximalRuns s := by
  simp [maximalRuns, List.splitOnP_cons, hc]

theorem maximalRuns_spaces_append (ws s : Str) (hws : ∀ c ∈ ws, isSpace c = true) :
    maximalRuns (ws ++ s) = maximalRuns s := by
  induction ws with
  | nil => rfl
  | cons c ws ih =>
    show maximalRuns (c :: (ws ++ s)) = _
    rw [maximalRuns_space_cons c _ (hws c (by simp)),
      ih (fun x hx => hws x (List.mem_cons_of_mem _ hx))]

theorem maximalRuns_spaces (ws : Str) (hws : ∀ c ∈ ws, isSpace c = true) :
    maximalRuns ws = [] := by
  have h := maximalRuns_spaces_append ws [] hws
  rw [List.append_nil] at h
  rw [h, maximalRuns_nil]

theorem maximalRuns_word (ws : Str) (c : Char) (w rest : Str)
    (hws : ∀ x ∈ ws, isSpace x = true) (hw : ∀ x ∈ c :: w, isSpace x = false)
    (hrest : rest = [] ∨ ∃ d r, rest = d :: r ∧ isSpace d = true) :
    maximalRuns (ws ++ (c :: w ++ rest)) = (c :: w) :: maximalRuns rest := by
  rw [maximalRuns_spaces_append ws _ hws]
  have hw' : ∀ x ∈ c :: w, ¬ (isSpace x = true) := fun x hx => by simp [hw x hx]
  rcases hrest with rfl | ⟨d, r, rfl, hd⟩
  · rw [List.append_nil, maximalRuns_nil]
    unfold maximalRuns
    rw [List.splitOnP_eq_single isSpace (c :: w) hw']
    simp
  · rw [maximalRuns_space_cons d r hd]
    unfold maximalRuns
    rw [List.splitOnP_first isSpace (c :: w) hw' d hd r]
    simp

/-- The maximal runs are non-empty and free of whitespace, and the text is these
runs with nothing but whitespace before, between and after them. -/
theorem maximalRuns_weave (n : Nat) (s : Str) (hn : s.length < n) :
    (∀ a ∈ maximalRuns s, a ≠ [] ∧ ∀ c ∈ a, isSpace c = false) ∧
    ∃ seps : List Str, seps.length = (maximalRuns s).length + 1 ∧
      (∀ sep ∈ seps, ∀ c ∈ sep, isSpace c = true) ∧
      weave seps (maximalRuns s) = s := by
  induction n generalizing s with
  | zero => exact absurd hn (by simp)
  | succ n ih =>
    rcases first_word s with h | ⟨ws, c, w, rest, rfl, hws, hw, hrest⟩
    · rw [maximalRuns_spaces s h]
      refine ⟨by simp, [s], rfl, ?_, rfl⟩
      intro sep hsep
      rw [List.mem_singleton.1 hsep]
      exact h
    · have hlen : rest.length < n := by
        simp only [List.length_append, List.length_cons] at hn
        omega
      obtain ⟨h1, seps, hsl, hss, hwv⟩ := ih rest hlen
      rw [maximalRuns_word ws c w rest hws hw hrest]
      refine ⟨?_, ws :: seps, by simp [hsl], ?_, ?_⟩
      · intro a ha
        rcases List.mem_cons.1 ha with rfl | ha
        · exact ⟨by simp, hw⟩
        · exact h1 a ha
      · intro sep hsep
        rcases List.mem_cons.1 hsep with rfl | hsep
        · exact hws
        · exact hss sep hsep
      · cases seps with
        | nil => simp at hsl
        | cons sep seps =>
          show ws ++ (c :: w) ++ weave (sep :: seps) (maximalRuns rest) = _
          rw [hwv]
          simp

theorem allMatches_no_quote (n : Nat) (prev : Bool) (s : Str) (hn : s.length < n)
    (hq : ∀ c ∈ s, c ≠ '\'' ∧ c ≠ '"') :
    allMatches runargsRe n prev s = maximalRuns s := by
  induction n generalizing s prev with
  | zero => exact absurd hn (by simp)
  | succ n ih =>
    rcases first_word s with h | ⟨ws, c, w, rest, rfl, hws, hw, hrest⟩
    · rw [allMatches_spaces _ _ s h, maximalRuns_spaces s h]
    · have hlen : rest.length < n := by
        simp only [List.length_append, List.length_cons] at hn
        omega
      have hc : c ≠ '\'' ∧ c ≠ '"' := hq c (by simp)
      have hqr : ∀ x ∈ rest, x ≠ '\'' ∧ x ≠ '"' := fun x hx => hq x (by simp [hx])
      rw [allMatches_word n prev ws c w rest hws hc hw hrest,
        maximalRuns_word ws c w rest hws hw hrest, ih true rest hlen hqr]

/-- C9: for a non-empty run-argument string without single or double quote, the
arguments `Start` gives the child after the artifact path are exactly the maximal
runs of non-whitespace characters of the string, in order, where whitespace is
space, tab, newline, form feed and carriage return; none is empty or contains
whitespace, and the string is these arguments with nothing but whitespace before,
between and after them. -/
theorem startArgs_no_quote (runargs appname : Str) (hne : runargs ≠ [])
    (hq : ∀ c ∈ runargs, c ≠ '\'' ∧ c ≠ '"') :
    (startArgs runargs appname).tail = maximalRuns runargs ∧
    (∀ c : Char, isSpace c = true ↔
      c = ' ' ∨ c = '\t' ∨ c = '\n' ∨ c = '\x0c' ∨ c = '\r') ∧
    (∀ a ∈ (startArgs runargs appname).tail, a ≠ [] ∧ ∀ c ∈ a, isSpace c = false) ∧
    ∃ seps : List Str, seps.length = (startArgs runargs appname).tail.length + 1 ∧
      (∀ sep ∈ seps, ∀ c ∈ sep, isSpace c = true) ∧
      weave seps (startArgs runargs appname).tail = runargs := by
  have h1 : (startArgs runargs appname).tail = maximalRuns runargs := by
    simp only [startArgs, hne, ne_eq, not_false_eq_true, if_true, List.singleton_append,
      List.tail_cons]
    exact allMatches_no_quote _ false runargs (Nat.lt_succ_self _) hq
  have h2 := maximalRuns_weave _ runargs (Nat.lt_succ_self _)
  refine ⟨h1, ?_, ?_, ?_⟩
  · intro c
    simp only [isSpace, Bool.or_eq_true, beq_iff_eq]
    tauto
  · rw [h1]
    exact h2.1
  · rw [h1]
    exact h2.2

/-- The run-argument string `-conf  /etc/app.toml -v ` (two spaces after `-conf`,
one at the end) gives the three arguments `-conf`, `/etc/app.toml`, `-v`. -/
theorem startArgs_no_quote_witness :
    (startArgs "-conf  /etc/app.toml -v ".toList "go-app-debug".toList).tail =
      ["-conf".toList, "/etc/app.toml".toList, "-v".toList] :=
  (startArgs_no_quote "-conf  /etc/app.toml -v ".toList "go-app-debug".toList
    (by decide) (by decide)).1.trans (by decide)

/-! ## Run-argument parsing: quoted texts -/

/-- C5, counterexample: on `-conf "a b/app.toml" -v` the second argument the child
receives is the quoted text with its two quote characters, not the text between
them. -/
theorem startArgs_quoted_keeps_quotes :
    (startArgs "-conf \"a b/app.toml\" -v".toList "go-app-debug".toList).tail =
      ["-conf".toList, "\"a b/app.toml\"".toList, "-v".toList] ∧
    (startArgs "-conf \"a b/app.toml\" -v".toList "go-app-debug".toList).tail ≠
      ["-conf".toList, "a b/app.toml".toList, "-v".toList] := by
  decide

/-- C5, amended: for non-empty words `u` and `v` without whitespace and quotes, a
non-empty text `body` without quotes and newline, and `q` either quote character,
the run-argument string `u q body q v` (single spaces between the three parts)
gives exactly three arguments after the artifact path: `u`, then `body` still
enclosed in its quote characters, then `v`. -/
theorem startArgs_quoted (u v body appname : Str) (q : Char) (hq : q = '\'' ∨ q = '"')
    (hu : u ≠ []) (hu' : ∀ c ∈ u, isSpace c = false ∧ c ≠ '\'' ∧ c ≠ '"')
    (hv : v ≠ []) (hv' : ∀ c ∈ v, isSpace c = false ∧ c ≠ '\'' ∧ c ≠ '"')
    (hb : body ≠ []) (hb' : ∀ c ∈ body, c ≠ '\'' ∧ c ≠ '"' ∧ c ≠ '\n') :
    (startArgs (u ++ ' ' :: (q :: body ++ q :: ' ' :: v)) appname).tail =
      [u, q :: body ++ [q], v] := by
  obtain ⟨c, w, rfl⟩ : ∃ c w, u = c :: w := by
    cases u with
    | nil => exact absurd rfl hu
    | cons c w => exact ⟨c, w, rfl⟩
  obtain ⟨d, x, rfl⟩ : ∃ d x, v = d :: x := by
    cases v with
    | nil => exact absurd rfl hv
    | cons d x => exact ⟨d, x, rfl⟩
  have hsp : isSpace ' ' = true := by decide
  have hne : c :: w ++ ' ' :: (q :: body ++ q :: ' ' :: (d :: x)) ≠ [] := by simp
  obtain ⟨k, hk⟩ : ∃ k,
      (c :: w ++ ' ' :: (q :: body ++ q :: ' ' :: (d :: x))).length = k + 2 :=
    ⟨w.length + body.length + x.length + 4, by simp; omega⟩
  have hbq : ∀ y ∈ body, y ≠ q ∧ y ≠ '\n' := by
    intro y hy
    have := hb' y hy
    rcases hq with rfl | rfl
    · exact ⟨this.1, this.2.2⟩
    · exact ⟨this.2.1, this.2.2⟩
  have hrq : ∀ y ∈ ' ' :: d :: x, y ≠ q := by
    intro y hy
    rcases List.mem_cons.1 hy with rfl | hy
    · rcases hq with rfl | rfl <;> decide
    · have := hv' y hy
      rcases hq with rfl | rfl
      · exact this.2.1
      · exact this.2.2
  have s1 := allMatches_word (k + 2) false [] c w
    (' ' :: (q :: body ++ q :: ' ' :: (d :: x))) (by simp) (hu' c (by simp)).2
    (fun y hy => (hu' y hy).1) (Or.inr ⟨' ', _, rfl, hsp⟩)
  have s2 := allMatches_quoted (k + 1) true [' '] q hq body (' ' :: d :: x)
    (by simpa using hsp) hb hbq hrq
  have s3 := allMatches_word k true [' '] d x [] (by simpa using hsp) (hv' d (by simp)).2
    (fun y hy => (hv' y hy).1) (Or.inl rfl)
  have s4 := allMatches_spaces k true [] (by simp)
  simp only [startArgs, hne, ne_eq, not_false_eq_true, if_true, List.singleton_append,
    List.tail_cons, FindAllString]
  rw [hk]
  simp only [List.nil_append, List.singleton_append, List.append_nil] at s1 s2 s3
  rw [s1, s2, s3, s4]

/-- The run-argument string `-conf 'a b/app.toml' -v` gives `-conf`, the quoted text
with its single quotes, and `-v`. -/
theorem startArgs_quoted_witness :
    (startArgs "-conf 'a b/app.toml' -v".toList "go-app-debug".toList).tail =
      ["-conf".toList, "'a b/app.toml'".toList, "-v".toList] :=
  startArgs_quoted "-conf".toList "-v".toList "a b/app.toml".toList "go-app-debug".toList
    '\'' (Or.inl rfl) (by decide) (by decide) (by decide) (by decide) (by decide) (by decide)

/-- C6, at the failing input: on `-a "x y" -b "z w"` the greedy `.+` runs from the
first double quote to the last one, so that the child receives two arguments, `-a`
and `"x y" -b "z w"`, where the string holds four tokens. -/
theorem startArgs_two_quoted_merged :
    (startArgs "-a \"x y\" -b \"z w\"".toList "go-app-debug".toList).tail =
      ["-a".toList, "\"x y\" -b \"z w\"".toList] ∧
    (startArgs "-a \"x y\" -b \"z w\"".toList "go-app-debug".toList).tail.length ≠ 4 := by
  decide

/-! ## Run-argument parsing: what a match is made of -/

theorem mem_quoteTails (q : Char) (r x : Str) (h : x ∈ quoteTails q r) :
    ∃ body, body ≠ [] ∧ r = body ++ q :: x := by
  induction r with
  | nil => simp [quoteTails_nil] at h
  | cons c r ih =>
    rw [quoteTails_cons] at h
    by_cases hc : c = '\n'
    · simp [hc] at h
    · rw [if_neg hc] at h
      rcases List.mem_append.1 h with h | h
      · obtain ⟨body, _, hr⟩ := ih h
        exact ⟨c :: body, by simp, by simp [hr]⟩
      · cases r with
        | nil => simp [run_lit_nil] at h
        | cons d r' =>
          rw [run_lit_cons] at h
          by_cases hd : d = q
          · rw [if_pos hd] at h
            rw [List.mem_singleton] at h
            exact ⟨[c], by simp, by simp [hd, h]⟩
          · simp [hd] at h

theorem quoteTails_head? (q : Char) (body rest : Str) (hne : body ≠ [])
    (hbody : ∀ c ∈ body, c ≠ '\n') (hrest : ∀ c ∈ rest, c ≠ q) :
    (quoteTails q (body ++ q :: rest)).head? = some rest := by
  have hclose : quoteTails q (q :: rest) = [] := by
    have hlit : (Regex.lit q).run rest = [] := by
      cases rest with
      | nil => rfl
      | cons d r' => simp [run_lit_cons, hrest d (by simp)]
    rw [quoteTails_cons, quoteTails_of_no_quote q rest hrest, hlit]
    simp
  induction body with
  | nil => exact absurd rfl hne
  | cons c b ih =>
    have hc := hbody c (by simp)
    cases b with
    | nil =>
      show (quoteTails q (c :: q :: rest)).head? = some rest
      rw [quoteTails_cons, hclose, run_lit_cons]
      simp [hc]
    | cons d b' =>
      have hb : ∀ x ∈ d :: b', x ≠ '\n' := fun x hx => hbody x (List.mem_cons_of_mem _ hx)
      have h1 := ih (by simp) hb
      show (quoteTails q (c :: (d :: b' ++ q :: rest))).head? = some rest
      rw [quoteTails_cons, if_neg hc, List.head?_append, h1]
      rfl

theorem mem_greedyTails (p : Char → Bool) (s r : Str) (h : r ∈ greedyTails p s) :
    ∃ m, m ≠ [] ∧ s = m ++ r ∧ ∀ c ∈ m, p c = true := by
  induction s with
  | nil => simp [greedyTails] at h
  | cons c s ih =>
    by_cases hp : p c = true
    · simp only [greedyTails, hp, if_true, List.mem_append, List.mem_singleton] at h
      rcases h with h | rfl
      · obtain ⟨m, _, hs, hm⟩ := ih h
        refine ⟨c :: m, by simp, by simp [hs], ?_⟩
        intro x hx
        rcases List.mem_cons.1 hx with rfl | hx
        · exact hp
        · exact hm x hx
      · exact ⟨[c], by simp, rfl, by simpa using hp⟩
    · simp [greedyTails, hp] at h

/-- Every match of the pattern is not empty, and is free of whitespace or ends with
a quote character. -/
theorem mem_run_runargsRe (s r : Str) (h : r ∈ runargsRe.run s) :
    ∃ m, m ≠ [] ∧ s = m ++ r ∧
      ((∀ c ∈ m, isSpace c = false) ∨ m.getLast? = some '\'' ∨ m.getLast? = some '"') := by
  cases s with
  | nil => simp [run_runargsRe_nil] at h
  | cons c s =>
    rw [run_runargsRe_cons] at h
    rcases List.mem_append.1 h with h | h
    · by_cases hc : c = '\''
      · rw [if_pos hc] at h
        obtain ⟨body, _, hs⟩ := mem_quoteTails _ _ _ h
        refine ⟨c :: body ++ ['\''], by simp, by simp [hs], Or.inr (Or.inl ?_)⟩
        rw [List.getLast?_append]
        rfl
      · simp [hc] at h
    · rcases List.mem_append.1 h with h | h
      · by_cases hc : c = '"'
        · rw [if_pos hc] at h
          obtain ⟨body, _, hs⟩ := mem_quoteTails _ _ _ h
          refine ⟨c :: body ++ ['"'], by simp, by simp [hs], Or.inr (Or.inr ?_)⟩
          rw [List.getLast?_append]
          rfl
        · simp [hc] at h
      · obtain ⟨m, hm, hs, hp⟩ := mem_greedyTails _ _ _ h
        refine ⟨m, hm, hs, Or.inl ?_⟩
        intro x hx
        simpa using hp x hx

theorem matchAt_sound (s m r : Str) (h : matchAt runargsRe s = some (m, r)) :
    m ≠ [] ∧ s = m ++ r ∧
      ((∀ c ∈ m, isSpace c = false) ∨ m.getLast? = some '\'' ∨ m.getLast? = some '"') := by
  unfold matchAt at h
  cases hh : (runargsRe.run s).head? with
  | none => simp [hh] at h
  | some r' =>
    obtain ⟨m', hm', hs, hP⟩ := mem_run_runargsRe s r' (List.mem_of_mem_head? hh)
    simp only [hh, Option.some.injEq, Prod.mk.injEq] at h
    obtain ⟨h1, h2⟩ := h
    subst h2
    have : m = m' := by
      rw [← h1, hs]
      simp
    subst this
    exact ⟨hm', hs, hP⟩

theorem doExecute_sound (s skip m r : Str) (h : doExecute runargsRe s = some (skip, m, r)) :
    m ≠ [] ∧
      ((∀ c ∈ m, isSpace c = false) ∨ m.getLast? = some '\'' ∨ m.getLast? = some '"') := by
  induction s generalizing skip with
  | nil => simp [doExecute, matchAt_nil] at h
  | cons c s ih =>
    rw [doExecute] at h
    cases hm : matchAt runargsRe (c :: s) with
    | some x =>
      obtain ⟨m', r'⟩ := x
      simp only [hm, Option.some.injEq, Prod.mk.injEq] at h
      obtain ⟨_, h2, h3⟩ := h
      subst h2
      subst h3
      have := matchAt_sound _ _ _ hm
      exact ⟨this.1, this.2.2⟩
    | none =>
      simp only [hm] at h
      cases hd : doExecute runargsRe s with
      | none => simp [hd] at h
      | some y =>
        obtain ⟨skip', m', r'⟩ := y
        simp only [hd, Option.some.injEq, Prod.mk.injEq] at h
        obtain ⟨_, h2, h3⟩ := h
        subst h2
        subst h3
        exact ih skip' hd

/-- Every argument the loop delivers is free of whitespace or ends with a quote
character. -/
theorem mem_allMatches (n : Nat) (prev : Bool) (s x : Str)
    (h : x ∈ allMatches runargsRe n prev s) :
    (∀ c ∈ x, isSpace c = false) ∨ x.getLast? = some '\'' ∨ x.getLast? = some '"' := by
  induction n generalizing prev s with
  | zero => simp [allMatches] at h
  | succ n ih =>
    cases hd : doExecute runargsRe s with
    | none => simp [allMatches_of_none _ _ _ _ hd] at h
    | some y =>
      obtain ⟨skip, m, r⟩ := y
      have hs := doExecute_sound s skip m r hd
      rw [allMatches_step runargsRe n prev s skip m r hd hs.1] at h
      rcases List.mem_cons.1 h with rfl | h
      · exact hs.2
      · exact ih true r h

/-- One turn of the loop on a word that no quoted alternative matches: after
whitespace `ws`, a run of non-whitespace characters followed by whitespace or by the
end is the next match. -/
theorem allMatches_run (n : Nat) (prev : Bool) (ws : Str) (c : Char) (w rest : Str)
    (hws : ∀ x ∈ ws, isSpace x = true)
    (hq1 : c = '\'' → quoteTails '\'' (w ++ rest) = [])
    (hq2 : c = '"' → quoteTails '"' (w ++ rest) = [])
    (hw : ∀ x ∈ c :: w, isSpace x = false)
    (hrest : rest = [] ∨ ∃ d r, rest = d :: r ∧ isSpace d = true) :
    allMatches runargsRe (n + 1) prev (ws ++ (c :: w ++ rest)) =
      (c :: w) :: allMatches runargsRe n true rest := by
  have hm : matchAt runargsRe (c :: w ++ rest) = some (c :: w, rest) := by
    apply matchAt_of_head?
    show (runargsRe.run (c :: (w ++ rest))).head? = some rest
    have hc : (fun d => !isSpace d) c = true := by simp [hw c (by simp)]
    have hdrop : (w ++ rest).dropWhile (fun d => !isSpace d) = rest := by
      apply dropWhile_word
      · intro x hx
        simp [hw x (List.mem_cons_of_mem _ hx)]
      · rcases hrest with h | ⟨d, r, h, hd⟩
        · exact Or.inl h
        · exact Or.inr ⟨d, r, h, by simp [hd]⟩
    have e1 : (if c = '\'' then quoteTails '\'' (w ++ rest) else []) = [] := by
      by_cases h : c = '\''
      · rw [if_pos h, hq1 h]
      · rw [if_neg h]
    have e2 : (if c = '"' then quoteTails '"' (w ++ rest) else []) = [] := by
      by_cases h : c = '"'
      · rw [if_pos h, hq2 h]
      · rw [if_neg h]
    rw [run_runargsRe_cons, e1, e2]
    simp only [List.nil_append]
    rw [greedyTails_head? _ c _ hc, hdrop]
  apply allMatches_step runargsRe n prev _ (ws ++ []) (c :: w) rest _ (by simp)
  rw [doExecute_skip_spaces ws _ hws, doExecute_of_matchAt _ _ _ _ hm]

/-- One turn of the loop on a text that begins with a quote `q` and holds `q` again
after at least one character, without newline before its last `q`: the next match
runs from the first `q` to the last one. -/
theorem allMatches_quoted_last (n : Nat) (prev : Bool) (ws : Str) (q : Char)
    (hq : q = '\'' ∨ q = '"') (body rest : Str)
    (hws : ∀ x ∈ ws, isSpace x = true) (hne : body ≠ [])
    (hbody : ∀ c ∈ body, c ≠ '\n') (hrest : ∀ c ∈ rest, c ≠ q) :
    allMatches runargsRe (n + 1) prev (ws ++ (q :: body ++ q :: rest)) =
      (q :: body ++ [q]) :: allMatches runargsRe n true rest := by
  have hm : matchAt runargsRe (q :: body ++ q :: rest) = some (q :: body ++ [q], rest) := by
    have hs : q :: body ++ q :: rest = (q :: body ++ [q]) ++ rest := by simp
    rw [hs]
    apply matchAt_of_head?
    rw [← hs]
    show (runargsRe.run (q :: (body ++ q :: rest))).head? = some rest
    rw [run_runargsRe_cons]
    have hb := quoteTails_head? q body rest hne hbody hrest
    rcases hq with rfl | rfl
    · rw [if_pos rfl, List.head?_append, hb]
      rfl
    · rw [if_neg (by decide), if_pos rfl, List.nil_append, List.head?_append, hb]
      rfl
  apply allMatches_step runargsRe n prev _ (ws ++ []) (q :: body ++ [q]) rest _ (by simp)
  rw [doExecute_skip_spaces ws _ hws, doExecute_of_matchAt _ _ _ _ hm]

/-! ## Default run arguments -/

/-- C8, counterexample: with no run arguments given, the valid directory `/my proj`
as project root makes the child receive three arguments after the artifact path,
`-conf`, `/my` and `proj/app.toml` (the default string is split at the space of the
root), and so does the valid directory `"my"proj`, with `-conf`, `"my"` and
`proj/app.toml` (the quoted alternative of the pattern matches the head of the
root). -/
theorem startArgs_default_split :
    ((initArgs (fun p => if p = "/my proj".toList then some true else none)
        (some "/home".toList)
        { mainFilePath := [], projectPath := "/my proj".toList, runargs := [] }).map
      (fun a => (a.projectPath, (startArgs a.runargs "go-app-debug".toList).tail)) =
      some ("/my proj".toList, ["-conf".toList, "/my".toList, "proj/app.toml".toList]) ∧
    ["-conf".toList, "/my".toList, "proj/app.toml".toList] ≠
      ["-conf".toList, "/my proj/app.toml".toList]) ∧
    ((initArgs (fun p => if p = "\"my\"proj".toList then some true else none)
        (some "/home".toList)
        { mainFilePath := [], projectPath := "\"my\"proj".toList, runargs := [] }).map
      (fun a => (a.projectPath, (startArgs a.runargs "go-app-debug".toList).tail)) =
      some ("\"my\"proj".toList,
        ["-conf".toList, "\"my\"".toList, "proj/app.toml".toList]) ∧
    ["-conf".toList, "\"my\"".toList, "proj/app.toml".toList] ≠
      ["-conf".toList, "\"my\"proj/app.toml".toList]) := by
  decide

theorem initArgs_default_runargs (stat : Str → Option Bool) (getwd : Option Str)
    (a a' : Args) (hr : a.runargs = []) (hi : initArgs stat getwd a = some a') :
    a'.runargs = "-conf ".toList ++ a'.projectPath ++ "/app.toml".toList := by
  unfold initArgs at hi
  rcases hs : stat a.projectPath with _ | _ | _ <;> rcases getwd with _ | wd <;>
    simp [hs, hr] at hi <;> subst hi <;> rfl

/-- On the default string, the first argument is `-conf` and the loop goes on with
the space and the configuration path. -/
theorem defaultArgs_first (root appname : Str) :
    (startArgs ("-conf ".toList ++ root ++ "/app.toml".toList) appname).tail =
      "-conf".toList ::
        allMatches runargsRe ((root ++ "/app.toml".toList).length + 6) true
          (' ' :: (root ++ "/app.toml".toList)) := by
  have hsp : isSpace ' ' = true := by decide
  have hs : "-conf ".toList ++ root ++ "/app.toml".toList =
      '-' :: "conf".toList ++ ' ' :: (root ++ "/app.toml".toList) := by
    simp
  rw [hs]
  have hne : '-' :: "conf".toList ++ ' ' :: (root ++ "/app.toml".toList) ≠ [] := by simp
  have hk : ('-' :: "conf".toList ++ ' ' :: (root ++ "/app.toml".toList)).length =
      (root ++ "/app.toml".toList).length + 6 := by
    simp
  have s1 := allMatches_word ((root ++ "/app.toml".toList).length + 6) false [] '-'
    "conf".toList (' ' :: (root ++ "/app.toml".toList))
    (by simp) (by decide) (by decide) (Or.inr ⟨' ', _, rfl, hsp⟩)
  simp only [startArgs, hne, ne_eq, not_false_eq_true, if_true, List.singleton_append,
    List.tail_cons, FindAllString]
  rw [hk]
  simp only [List.nil_append] at s1
  rw [s1]
  rfl

theorem last_occurrence (q : Char) (l : Str) (h : q ∈ l) :
    ∃ a b, l = a ++ q :: b ∧ ∀ c ∈ b, c ≠ q := by
  induction l with
  | nil => simp at h
  | cons c l ih =>
    by_cases hl : q ∈ l
    · obtain ⟨a, b, hab, hb⟩ := ih hl
      exact ⟨c :: a, b, by simp [hab], hb⟩
    · have hc : c = q := by
        rcases List.mem_cons.1 h with h | h
        · exact h.symm
        · exact absurd h hl
      refine ⟨[], l, by simp [hc], ?_⟩
      intro x hx hxq
      exact hl (hxq ▸ hx)

/-- No quoted alternative matches at the head of the configuration path when the
root does not begin with a quote that occurs again after at least one character. -/
theorem quoteTails_default (q c : Char) (root w : Str) (hq : q = '\'' ∨ q = '"')
    (hcw : root ++ "/app.toml".toList = c :: w) (hc : c = q)
    (hrec : ¬ ∃ q body rest, (q = '\'' ∨ q = '"') ∧ body ≠ [] ∧
      root = q :: body ++ q :: rest) :
    quoteTails q (w ++ []) = [] := by
  rw [List.append_nil]
  apply List.eq_nil_iff_forall_not_mem.2
  intro x hx
  obtain ⟨body, hbody, hw⟩ := mem_quoteTails q w x hx
  have hsfx : q ∉ "/app.toml".toList := by
    rcases hq with rfl | rfl <;> decide
  cases root with
  | nil =>
    have h0 : "/app.toml".toList = c :: w := hcw
    have : q ∈ "/app.toml".toList := by
      rw [h0, hc]
      simp
    exact hsfx this
  | cons d rt =>
    have h1 : d :: (rt ++ "/app.toml".toList) = c :: w := hcw
    obtain ⟨hd, hrt⟩ := List.cons.inj h1
    rw [hw] at hrt
    rcases List.append_eq_append_iff.1 hrt with ⟨a', h2, h3⟩ | ⟨c', h2, h3⟩
    · have : q ∈ "/app.toml".toList := by
        rw [h3]
        simp
      exact hsfx this
    · cases c' with
      | nil =>
        have : q ∈ "/app.toml".toList := by
          rw [List.nil_append] at h3
          rw [← h3]
          simp
        exact hsfx this
      | cons e c'' =>
        have he : e = q := by
          have := List.cons.inj h3
          exact this.1.symm
        apply hrec
        refine ⟨q, body, c'', hq, hbody, ?_⟩
        rw [hd, hc, h2, he]
        simp

/-- The default run arguments of a root `root`: the child receives `-conf` and
`root/app.toml` when `root` holds no whitespace and does not begin with a quote
character that occurs again after at least one character. -/
theorem defaultArgs_of_plain (root appname : Str) (hws : ∀ c ∈ root, isSpace c = false)
    (hrec : ¬ ∃ q body rest, (q = '\'' ∨ q = '"') ∧ body ≠ [] ∧
      root = q :: body ++ q :: rest) :
    (startArgs ("-conf ".toList ++ root ++ "/app.toml".toList) appname).tail =
      ["-conf".toList, root ++ "/app.toml".toList] := by
  rw [defaultArgs_first]
  have hsp : isSpace ' ' = true := by decide
  have htail : ∀ y ∈ "/app.toml".toList, isSpace y = false := by decide
  have hw : ∀ y ∈ root ++ "/app.toml".toList, isSpace y = false := by
    intro y hy
    rcases List.mem_append.1 hy with h | h
    · exact hws y h
    · exact htail y h
  obtain ⟨c, w, hcw⟩ : ∃ c w, root ++ "/app.toml".toList = c :: w := by
    cases root with
    | nil => exact ⟨'/', "app.toml".toList, rfl⟩
    | cons c r => exact ⟨c, r ++ "/app.toml".toList, rfl⟩
  have hq1 := fun h => quoteTails_default '\'' c root w (Or.inl rfl) hcw h hrec
  have hq2 := fun h => quoteTails_default '"' c root w (Or.inr rfl) hcw h hrec
  rw [hcw] at hw ⊢
  have s2 := allMatches_run ((c :: w).length + 5) true [' '] c w []
    (by simpa using hsp) hq1 hq2 hw (Or.inl rfl)
  have s3 := allMatches_spaces ((c :: w).length + 5) true [] (by simp)
  simp only [List.singleton_append, List.append_nil] at s2
  rw [s2, s3]

/-- The default run arguments of every other root are not `-conf` and
`root/app.toml`: a root that gives these two arguments holds no whitespace and does
not begin with a quote character that occurs again after at least one character. -/
theorem defaultArgs_only_if (root appname : Str)
    (h : (startArgs ("-conf ".toList ++ root ++ "/app.toml".toList) appname).tail =
      ["-conf".toList, root ++ "/app.toml".toList]) :
    (∀ c ∈ root, isSpace c = false) ∧
    ¬ ∃ q body rest, (q = '\'' ∨ q = '"') ∧ body ≠ [] ∧ root = q :: body ++ q :: rest := by
  rw [defaultArgs_first] at h
  have h2 : allMatches runargsRe ((root ++ "/app.toml".toList).length + 6) true
      (' ' :: (root ++ "/app.toml".toList)) = [root ++ "/app.toml".toList] :=
    (List.cons.inj h).2
  have hsp : isSpace ' ' = true := by decide
  have hlast : (root ++ "/app.toml".toList).getLast? = some 'l' := by
    rw [List.getLast?_append]
    rfl
  have hmem := mem_allMatches _ _ _ (root ++ "/app.toml".toList) (by rw [h2]; simp)
  have hfree : ∀ c ∈ root ++ "/app.toml".toList, isSpace c = false := by
    rcases hmem with hm | hm | hm
    · exact hm
    · rw [hlast] at hm
      exact absurd hm (by decide)
    · rw [hlast] at hm
      exact absurd hm (by decide)
  refine ⟨fun c hc => hfree c (List.mem_append_left _ hc), ?_⟩
  rintro ⟨q, body, rest, hq, hbody, hroot⟩
  obtain ⟨a, b, hab, hb⟩ := last_occurrence q (q :: (rest ++ "/app.toml".toList)) (by simp)
  have ht : root ++ "/app.toml".toList = q :: (body ++ a) ++ q :: b := by
    rw [hroot]
    have : q :: body ++ q :: rest ++ "/app.toml".toList =
        q :: body ++ (q :: (rest ++ "/app.toml".toList)) := by simp
    rw [this, hab]
    simp
  have hnl : ∀ c ∈ body ++ a, c ≠ '\n' := by
    intro c hc hcn
    have hin : c ∈ root ++ "/app.toml".toList := by
      rw [ht]
      simp only [List.cons_append, List.mem_cons, List.mem_append]
      rcases List.mem_append.1 hc with h | h
      · exact Or.inr (Or.inl (Or.inl h))
      · exact Or.inr (Or.inl (Or.inr h))
    have := hfree c hin
    rw [hcn] at this
    exact absurd this (by decide)
  have s2 := allMatches_quoted_last ((root ++ "/app.toml".toList).length + 5) true [' '] q hq
    (body ++ a) b (by simpa using hsp) (by simp [hbody]) hnl hb
  simp only [List.singleton_append] at s2
  rw [ht] at h2
  rw [ht] at s2
  rw [s2] at h2
  have h3 := (List.cons.inj h2).1
  have hl1 : (q :: (body ++ a) ++ [q]).getLast? = some q := by
    rw [List.getLast?_append]
    rfl
  rw [h3, ← ht, hlast] at hl1
  rcases hq with rfl | rfl
  · exact absurd hl1 (by decide)
  · exact absurd hl1 (by decide)

/-- C8, amended: when the run-argument flag is unset and the resolved project root
contains no whitespace character and does not begin with a quote character that
occurs again in it after at least one other character, the default run-argument
string is `-conf <root>/app.toml` and the child receives, after the artifact path,
exactly the two arguments `-conf` and `<root>/app.toml`. -/
theorem startArgs_default (stat : Str → Option Bool) (getwd : Option Str) (a a' : Args)
    (appname : Str) (hr : a.runargs = []) (hi : initArgs stat getwd a = some a')
    (hws : ∀ c ∈ a'.projectPath, isSpace c = false)
    (hrec : ¬ ∃ q body rest, (q = '\'' ∨ q = '"') ∧ body ≠ [] ∧
      a'.projectPath = q :: body ++ q :: rest) :
    a'.runargs = "-conf ".toList ++ a'.projectPath ++ "/app.toml".toList ∧
    (startArgs a'.runargs appname).tail =
      ["-conf".toList, a'.projectPath ++ "/app.toml".toList] := by
  have hrun := initArgs_default_runargs stat getwd a a' hr hi
  refine ⟨hrun, ?_⟩
  rw [hrun]
  exact defaultArgs_of_plain a'.projectPath appname hws hrec

/-- With the valid directory `/proj` as project root and no run arguments given,
the child receives `-conf` and `/proj/app.toml`. -/
theorem startArgs_default_witness :
    (startArgs "-conf /proj/app.toml".toList "go-app-debug".toList).tail =
      ["-conf".toList, "/proj/app.toml".toList] :=
  (startArgs_default (fun p => if p = "/proj".toList then some true else none)
    (some "/home".toList)
    { mainFilePath := [], projectPath := "/proj".toList, runargs := [] }
    { mainFilePath := [], projectPath := "/proj".toList,
      runargs := "-conf /proj/app.toml".toList }
    "go-app-debug".toList rfl (by decide) (by decide)
    (fun ⟨_, _, _, hq, _, h⟩ =>
      hq.elim (fun e => absurd (e ▸ (List.cons.inj h).1) (by decide))
        (fun e => absurd (e ▸ (List.cons.inj h).1) (by decide)))).2

/-! ## Directory enumeration -/

/-- The call on a subdirectory, as the loop unfolds it, is `readAppDirectories`. -/
theorem readLoop_dir (name : Str) (readable : Bool) (sub rest : Entries) (directory : Str)
    (useDirectory : Bool) (paths : List Str) (h : name.head? ≠ some '.') :
    readLoop (.dir name readable sub rest) directory useDirectory paths =
      readLoop rest directory useDirectory
        (readAppDirectories (directory ++ "/".toList ++ name)
          (if readable then some sub else none) paths) := by
  cases readable <;> simp [readLoop, readAppDirectories, h]

/-- A directory without `.go` entry of any kind is not listed, a directory with
`.go` files is listed once, before the subdirectories that follow the first of
them, and a subdirectory that holds no `.go` file (`docs`, with `README.md` only)
is not listed, so that it is not among the watched directories. -/
theorem readAppDirectories_examples :
    readAppDirectories "/proj".toList (some (.file "README.md".toList .nil)) [] = [] ∧
    readAppDirectories "/proj".toList
        (some (.file "a.go".toList (.file "b.go".toList
          (.dir "pkg".toList true (.file "c.go".toList .nil) .nil)))) [] =
      ["/proj".toList, "/proj/pkg".toList] ∧
    readAppDirectories "/proj".toList
        (some (.dir "docs".toList true (.file "README.md".toList .nil)
          (.file "main.go".toList .nil))) [] =
      ["/proj".toList] := by
  decide

/-- C10, at the failing input: a project root `/proj` whose only entry is the empty
hidden directory `.cache.go` is listed, although it contains no file at all: the
hidden directory is not entered, and is then tested for the extension `.go` like a
file. The same root with the visible directory `pkg.go` in its place is not
listed. -/
theorem readAppDirectories_hidden_dir_listed :
    readAppDirectories "/proj".toList (some (.dir ".cache.go".toList true .nil .nil)) [] =
      ["/proj".toList] ∧
    readAppDirectories "/proj".toList (some (.dir "pkg.go".toList true .nil .nil)) [] =
      [] := by
  decide

end Gupdate
